import Mathlib

/-!
Verification development for the whiskaner-news feed builder
(`scripts/build.js` and its near-duplicate variant).

The merge engine is embedded shallowly:

* a JS feed item becomes the structure `Item`; fields that JS code probes
  with `??` (nullish coalescing) are `Option String`, fields that are always
  strings after normalization are `String`;
* instants are integers (milliseconds since the JS epoch, possibly
  negative); the ISO round trip `new Date(s).getTime()` is the identity on
  valid instants, so `date` is carried as the instant itself;
* `Array.prototype.sort` with the comparator `byDateDesc` is a stable sort
  by descending `date`; it is modelled by `List.mergeSort` with the
  corresponding boolean relation (ECMAScript requires sort stability);
* the `Set` of seen keys is modelled by a list of strings with the same
  membership semantics.
-/

/-- A normalized feed item (the objects flowing through `buildFeed`).
Fields read through `??` by `keyOf` are optional; `none` models
`undefined`/absent. -/
structure Item where
  id : Option String
  guid : Option String
  url : Option String
  link : Option String
  permalink : Option String
  title : Option String
  type : String
  source : String
  date : Int
  description : String
  image : Option String
  region : String
deriving DecidableEq

/-- `MAX_ITEMS = 800` from scripts/build.js. -/
def MAX_ITEMS : Nat := 800

/-- `MIN_VIDEOS = 100` from scripts/build.js. -/
def MIN_VIDEOS : Nat := 100

/-- Model of `JSON.stringify(x)`: a deterministic rendering of the object.
`keyOf` only reaches it when every other key field is absent. -/
def jsonStringify (x : Item) : String :=
  String.intercalate ","
    [x.id.getD "", x.guid.getD "", x.url.getD "", x.link.getD "",
     x.permalink.getD "", x.title.getD "", x.type, x.source,
     toString x.date, x.description, x.image.getD "", x.region]

/-- `keyOf = (x) => x.id ?? x.guid ?? x.url ?? x.link ?? x.permalink ?? x.title ?? JSON.stringify(x)`
(scripts/build.js line 264). `??` falls through only on null/undefined,
so the empty string is a valid key. -/
def keyOf (x : Item) : String :=
  x.id.getD (x.guid.getD (x.url.getD (x.link.getD
    (x.permalink.getD (x.title.getD (jsonStringify x))))))

/-- `byDateDesc = (a, b) => new Date(b.date) - new Date(a.date)`
(scripts/build.js line 263): the JS comparator value. -/
def byDateDesc (a b : Item) : Int := b.date - a.date

/-- The ordering induced by the comparator: `a` may precede `b` exactly when
`byDateDesc a b ≤ 0`, i.e. when `b.date ≤ a.date` (descending by date). -/
def dateDescLe (a b : Item) : Bool := byDateDesc a b ≤ 0

/-- Stable sort by the `byDateDesc` comparator, as performed by
`out.sort(byDateDesc)` (scripts/build.js line 422). -/
def sortByDateDesc (l : List Item) : List Item := l.mergeSort dateDescLe

/-- The millisecond value of the sentinel `new Date(0)`: the epoch instant
whose ISO rendering is `1970-01-01T00:00:00.000Z`. -/
def epochMS : Int := 0

/-- A raw date source value, abstracted by what `new Date(v)` does with it:
it is absent (the field was missing/empty), it is present but the platform
date parser yields an invalid date (`getTime()` is `NaN`), or it parses to
a definite instant. -/
inductive DateInput where
  | absent
  | unparsable
  | instant (ms : Int)
deriving DecidableEq

/-- `toISO` (scripts/build.js lines 267-270): parse, and on `NaN` fall back
to `new Date(0).toISOString()`. An absent value gives an invalid date, so
it also lands on the sentinel. Total: the `try/catch` means it never
throws, and in the embedding it is a total function. -/
def toISO : DateInput → Int
  | .absent => epochMS
  | .unparsable => epochMS
  | .instant ms => ms

/-- `toISODate` (the variant normalizer, with an explicit `if (!input)`
early return before the same parse-or-sentinel logic). -/
def toISODate : DateInput → Int
  | .absent => epochMS
  | .unparsable => epochMS
  | .instant ms => ms

/-- JS truthiness on an optional string: `undefined`, `null` and `""` are
falsy; `x || y` keeps `x` only when it is a non-empty string. -/
def truthyStr : Option String → Option String
  | none => none
  | some s => if s = "" then none else some s

/-- The re-normalization map applied to the pooled items
(scripts/build.js lines 408-416): `{ id: x.id, type: x.type,
source: x.source || "", title: (x.title || "").toString().trim(),
url: x.url || x.link || "", date: toISO(x.date), ... }`.
`x.date` is already a valid ISO instant at this point, so re-parsing it
yields the same instant. -/
def normalizeMin (x : Item) : Item :=
  { id := x.id
    guid := none
    url := some (((truthyStr x.url).getD ((truthyStr x.link).getD "")))
    link := none
    permalink := none
    title := some ((truthyStr x.title).getD "").trim
    type := x.type
    source := x.source
    date := toISO (.instant x.date)
    description := x.description
    image := truthyStr x.image
    region := if x.region = "" then "GLOBAL" else x.region }

/-- The dedup loop (scripts/build.js lines 419-420) with its seen-set made
explicit: `for (const it of all) { const k = keyOf(it); if (!seen.has(k))
{ seen.add(k); out.push(it); } }`. -/
def dedupGo (seen : List String) : List Item → List Item
  | [] => []
  | it :: rest =>
      if keyOf it ∈ seen then dedupGo seen rest
      else it :: dedupGo (keyOf it :: seen) rest

/-- Deduplication: first-seen-wins over `keyOf`. -/
def dedup (l : List Item) : List Item := dedupGo [] l

/-- `i.type === "video"`. -/
def isVideo (i : Item) : Bool := i.type = "video"

/-- `out.filter((i) => i.type === "video")` (scripts/build.js line 425). -/
def videosOf (out : List Item) : List Item := out.filter isVideo

/-- `out.filter((i) => i.type !== "video")` (scripts/build.js line 426). -/
def othersOf (out : List Item) : List Item := out.filter (fun i => ! isVideo i)

/-- `keepV = videos.slice(0, Math.min(MIN_VIDEOS, videos.length))`
(scripts/build.js line 428). -/
def reservedVideos (out : List Item) : List Item :=
  (videosOf out).take (min MIN_VIDEOS (videosOf out).length)

/-- `remain = Math.max(0, MAX_ITEMS - keepV.length)` (line 429); truncated
natural subtraction is exactly `max 0` of the integer difference. -/
def remainBudget (out : List Item) : Nat :=
  MAX_ITEMS - (reservedVideos out).length

/-- `taken = new Set(keepV.map(keyOf))` (line 431). -/
def takenKeys (out : List Item) : List String :=
  (reservedVideos out).map keyOf

/-- The fill loop (scripts/build.js lines 432-438): walk the non-video
items, skip keys already taken, push otherwise, and break once the
accumulated fill has reached `remain` (the check runs after the push). -/
def fillGo (taken : List String) (remain : Nat) (acc : List Item) :
    List Item → List Item
  | [] => acc
  | it :: rest =>
      if keyOf it ∈ taken then fillGo taken remain acc rest
      else
        if remain ≤ (acc ++ [it]).length then acc ++ [it]
        else fillGo taken remain (acc ++ [it]) rest

/-- The fill selected for a given deduplicated, ranked pool. -/
def fillOthers (out : List Item) : List Item :=
  fillGo (takenKeys out) (remainBudget out) [] (othersOf out)

/-- The quota-allocation step (scripts/build.js lines 424-440):
`return [...keepV, ...fill].sort(byDateDesc).slice(0, MAX_ITEMS)`. -/
def allocate (out : List Item) : List Item :=
  (sortByDateDesc (reservedVideos out ++ fillOthers out)).take MAX_ITEMS

/-- The pure merge engine of `buildFeed` (scripts/build.js lines 408-441):
re-normalize the pooled raw items, deduplicate, sort by recency, then
allocate with the video reservation. -/
def buildFeedCore (pool : List Item) : List Item :=
  allocate (sortByDateDesc (dedup (pool.map normalizeMin)))

/-- A persisted feed document: `{ generatedAt, count, items }`
(scripts/build.js line 456). -/
structure Feed where
  generatedAt : String
  count : Nat
  items : List Item
deriving DecidableEq

/-- `writeFeed`'s payload for a list of items at generation time `now`. -/
def mkFeed (now : String) (items : List Item) : Feed :=
  { generatedAt := now, count := items.length, items := items }

/-- What `readOldFeed` (scripts/build.js lines 444-452) can find on disk,
abstracted by the shapes the function distinguishes: an unreadable or
unparsable file, JSON of some other shape, a bare array of records, or an
object wrapping the records under `items`. -/
inductive PriorFile where
  | unreadable
  | otherJson
  | bareArray (records : List Item)
  | wrapped (generatedAt : String) (count : Nat) (records : List Item)

/-- `readOldFeed` (scripts/build.js lines 444-452): a wrapped object with a
non-empty `items` array is returned as is; a non-empty bare array is
re-wrapped with a fresh `generatedAt` and its length as `count`; anything
else — read/parse failure, other shapes, empty arrays — yields `null`. -/
def readOldFeed (now : String) : PriorFile → Option Feed
  | .unreadable => none
  | .otherJson => none
  | .bareArray rs => if rs.length ≠ 0 then some (mkFeed now rs) else none
  | .wrapped g c rs => if rs.length ≠ 0 then some ⟨g, c, rs⟩ else none

/-- Outcome of one run: what gets persisted (`none` = no write) and whether
the process reports success (exit code 0). -/
structure RunOutcome where
  written : Option Feed
  success : Bool
deriving DecidableEq

/-- The hard-coded guard of `scripts/build.js` `main` (lines 462-476): a
non-empty build is written and succeeds; an empty build re-writes the
prior feed verbatim (when one exists) and exits 1 either way. -/
def mainOutcome (now : String) (previous : Option Feed) (items : List Item) :
    RunOutcome :=
  if items.length = 0 then
    match previous with
    | some prev => { written := some prev, success := false }
    | none => { written := none, success := false }
  else { written := some (mkFeed now items), success := true }

/-- The `strictnessOnEmpty` policy values enumerated in §6 of the spec. -/
inductive Strictness where
  | retainAndSucceed
  | retainAndFail
  | writeEmptyAndSucceed
deriving DecidableEq

/-- Modelled from the spec: §6 lists `strictnessOnEmpty ∈ {retain-and-succeed,
retain-and-fail, write-empty-and-succeed}` as a configuration knob consumed
by the Snapshot Guard (§4.5), but the build scripts under src/ each
hard-code a single policy (`scripts/build.js` retains the prior feed and
exits 1; the unnamed variant writes whatever was built, empty or not), so
the policy dispatch on empty builds is taken from the spec's words. The
non-empty publish path and the retain re-write follow the code
(`writeFeed`, and `main`'s verbatim re-write of `previous`). -/
def snapshotGuard (pol : Strictness) (now : String) (previous : Option Feed)
    (items : List Item) : RunOutcome :=
  if items.length = 0 then
    match previous, pol with
    | some prev, .retainAndSucceed => { written := some prev, success := true }
    | some prev, .retainAndFail => { written := some prev, success := false }
    | some _, .writeEmptyAndSucceed =>
        { written := some (mkFeed now []), success := true }
    | none, .writeEmptyAndSucceed =>
        { written := some (mkFeed now []), success := true }
    | none, _ => { written := none, success := false }
  else { written := some (mkFeed now items), success := true }

/-! ### Basic facts about the comparator order -/

theorem dateDescLe_trans (a b c : Item) (h1 : dateDescLe a b) (h2 : dateDescLe b c) :
    dateDescLe a c := by
  simp only [dateDescLe, byDateDesc, decide_eq_true_eq] at *
  omega

theorem dateDescLe_total (a b : Item) : dateDescLe a b || dateDescLe b a := by
  simp only [dateDescLe, byDateDesc, Bool.or_eq_true, decide_eq_true_eq]
  omega

theorem sortByDateDesc_perm (l : List Item) : (sortByDateDesc l).Perm l :=
  List.mergeSort_perm l dateDescLe

theorem sortByDateDesc_of_sorted {l : List Item}
    (h : l.Pairwise (fun a b => dateDescLe a b = true)) : sortByDateDesc l = l :=
  List.mergeSort_of_sorted h

theorem sortByDateDesc_sorted (l : List Item) :
    (sortByDateDesc l).Pairwise (fun a b => dateDescLe a b = true) :=
  List.sorted_mergeSort dateDescLe_trans dateDescLe_total l

/-- Any list of items that pairwise satisfy a common property `P` is pairwise
related by any relation that holds between two `P`-items. -/
theorem pairwise_of_mem_imp {R : Item → Item → Prop} {P : Item → Prop}
    {l : List Item} (hl : ∀ x ∈ l, P x) (h : ∀ x y, P x → P y → R x y) :
    l.Pairwise R := by
  induction l with
  | nil => exact List.Pairwise.nil
  | cons a t ih =>
    refine List.Pairwise.cons ?_ (ih (fun x hx => hl x (List.mem_cons_of_mem a hx)))
    intro b hb
    exact h a b (hl a (List.mem_cons_self a t)) (hl b (List.mem_cons_of_mem a hb))

/-! ### The fill loop -/

theorem take_min_length {α : Type} (l : List α) (n : Nat) :
    l.take (min n l.length) = l.take n := by
  rcases Nat.le_total n l.length with h | h
  · rw [Nat.min_eq_left h]
  · rw [Nat.min_eq_right h, List.take_of_length_le (Nat.le_refl _),
      List.take_of_length_le h]

/-- While the accumulated fill is still short of `remain`, the loop collects
exactly the first `remain - acc.length` not-yet-taken items, in order. -/
theorem fillGo_eq_take (taken : List String) (remain : Nat) (others : List Item) :
    ∀ acc : List Item, acc.length < remain →
    fillGo taken remain acc others =
      acc ++ (others.filter
        (fun it => ! decide (keyOf it ∈ taken))).take (remain - acc.length) := by
  induction others with
  | nil => intro acc _; simp [fillGo]
  | cons it rest ih =>
    intro acc hacc
    by_cases hk : keyOf it ∈ taken
    · rw [fillGo, if_pos hk, ih acc hacc]
      simp [List.filter_cons, hk]
    · rw [fillGo, if_neg hk]
      by_cases hstop : remain ≤ (acc ++ [it]).length
      · rw [if_pos hstop]
        have hone : remain - acc.length = 1 := by
          simp only [List.length_append, List.length_cons, List.length_nil] at hstop
          omega
        simp [List.filter_cons, hk, hone]
      · rw [if_neg hstop]
        have hlt : (acc ++ [it]).length < remain := Nat.lt_of_not_le hstop
        rw [ih (acc ++ [it]) hlt]
        have hsucc : remain - acc.length = (remain - (acc ++ [it]).length) + 1 := by
          simp only [List.length_append, List.length_cons, List.length_nil] at *
          omega
        rw [hsucc]
        simp [List.filter_cons, hk, List.take_succ_cons]

/-! ### Allocation facts -/

theorem reservedVideos_eq_take (out : List Item) :
    reservedVideos out = (videosOf out).take MIN_VIDEOS := by
  rw [reservedVideos, take_min_length]

theorem reservedVideos_length (out : List Item) :
    (reservedVideos out).length = min MIN_VIDEOS (videosOf out).length := by
  rw [reservedVideos_eq_take, List.length_take]

theorem reservedVideos_length_le (out : List Item) :
    (reservedVideos out).length ≤ MIN_VIDEOS := by
  rw [reservedVideos_length]
  exact Nat.min_le_left _ _

theorem reservedVideos_sublist (out : List Item) :
    (reservedVideos out).Sublist (videosOf out) := by
  rw [reservedVideos_eq_take]
  exact List.take_sublist _ _

theorem remainBudget_pos (out : List Item) : 0 < remainBudget out := by
  have h := reservedVideos_length_le out
  rw [remainBudget]
  simp only [MIN_VIDEOS] at h
  simp only [MAX_ITEMS]
  omega

theorem fillOthers_eq_take (out : List Item) :
    fillOthers out =
      ((othersOf out).filter
        (fun it => ! decide (keyOf it ∈ takenKeys out))).take (remainBudget out) := by
  rw [fillOthers, fillGo_eq_take _ _ _ [] (by simpa using remainBudget_pos out)]
  simp

theorem fillOthers_length_le (out : List Item) :
    (fillOthers out).length ≤ remainBudget out := by
  rw [fillOthers_eq_take]
  exact le_trans (List.length_take_le _ _) (le_refl _)

theorem fillOthers_sublist (out : List Item) :
    (fillOthers out).Sublist (othersOf out) := by
  rw [fillOthers_eq_take]
  exact (List.take_sublist _ _).trans (List.filter_sublist _)

theorem fillOthers_no_video (out : List Item) :
    ∀ x ∈ fillOthers out, isVideo x = false := by
  intro x hx
  have hmem := (fillOthers_sublist out).mem hx
  rw [othersOf] at hmem
  have := List.of_mem_filter hmem
  simpa using this

theorem combined_length_le (out : List Item) :
    (reservedVideos out ++ fillOthers out).length ≤ MAX_ITEMS := by
  rw [List.length_append]
  have h1 := reservedVideos_length_le out
  have h2 := fillOthers_length_le out
  rw [remainBudget] at h2
  simp only [MAX_ITEMS, MIN_VIDEOS] at *
  omega

theorem allocate_eq_sort (out : List Item) :
    allocate out = sortByDateDesc (reservedVideos out ++ fillOthers out) := by
  rw [allocate, List.take_of_length_le]
  calc (sortByDateDesc (reservedVideos out ++ fillOthers out)).length
      = (reservedVideos out ++ fillOthers out).length :=
        (sortByDateDesc_perm _).length_eq
    _ ≤ MAX_ITEMS := combined_length_le out

theorem allocate_perm (out : List Item) :
    (allocate out).Perm (reservedVideos out ++ fillOthers out) := by
  rw [allocate_eq_sort]
  exact sortByDateDesc_perm _

theorem reservedVideos_all_video (out : List Item) :
    ∀ x ∈ reservedVideos out, isVideo x = true := by
  intro x hx
  have hmem := (reservedVideos_sublist out).mem hx
  rw [videosOf] at hmem
  exact List.of_mem_filter hmem

theorem allocate_filter_video (out : List Item) :
    ((allocate out).filter isVideo).Perm (reservedVideos out) := by
  have h := (allocate_perm out).filter isVideo
  have h1 : List.filter isVideo (reservedVideos out) = reservedVideos out :=
    List.filter_eq_self.mpr (reservedVideos_all_video out)
  have h2 : List.filter isVideo (fillOthers out) = [] :=
    List.filter_eq_nil_iff.mpr (fun a ha => by
      simp [fillOthers_no_video out a ha])
  rw [List.filter_append, h1, h2, List.append_nil] at h
  exact h

theorem allocate_length_le (out : List Item) :
    (allocate out).length ≤ MAX_ITEMS := by
  rw [allocate]
  exact List.length_take_le _ _

/-! ### Deduplication facts -/

theorem dedupGo_sublist (seen : List String) :
    ∀ l : List Item, (dedupGo seen l).Sublist l := by
  intro l
  induction l generalizing seen with
  | nil => simp [dedupGo]
  | cons it rest ih =>
    rw [dedupGo]
    by_cases hk : keyOf it ∈ seen
    · rw [if_pos hk]
      exact (ih seen).cons it
    · rw [if_neg hk]
      exact (ih (keyOf it :: seen)).cons₂ it

theorem dedupGo_key_not_seen (seen : List String) :
    ∀ l : List Item, ∀ x ∈ dedupGo seen l, keyOf x ∉ seen := by
  intro l
  induction l generalizing seen with
  | nil => simp [dedupGo]
  | cons it rest ih =>
    intro x hx
    rw [dedupGo] at hx
    by_cases hk : keyOf it ∈ seen
    · rw [if_pos hk] at hx
      exact ih seen x hx
    · rw [if_neg hk] at hx
      rcases List.mem_cons.mp hx with h | h
      · subst h; exact hk
      · intro habs
        exact ih (keyOf it :: seen) x h (List.mem_cons_of_mem _ habs)

theorem dedupGo_keys_nodup (seen : List String) :
    ∀ l : List Item, ((dedupGo seen l).map keyOf).Nodup := by
  intro l
  induction l generalizing seen with
  | nil => simp [dedupGo]
  | cons it rest ih =>
    rw [dedupGo]
    by_cases hk : keyOf it ∈ seen
    · rw [if_pos hk]
      exact ih seen
    · rw [if_neg hk]
      rw [List.map_cons, List.nodup_cons]
      constructor
      · intro habs
        rcases List.mem_map.mp habs with ⟨y, hy, hkey⟩
        exact dedupGo_key_not_seen _ _ y hy
          (hkey ▸ List.mem_cons_self (keyOf it) seen)
      · exact ih (keyOf it :: seen)

theorem dedupGo_find_first (seen : List String) :
    ∀ l : List Item, ∀ x ∈ dedupGo seen l,
      l.find? (fun y => keyOf y == keyOf x) = some x := by
  intro l
  induction l generalizing seen with
  | nil => simp [dedupGo]
  | cons it rest ih =>
    intro x hx
    rw [dedupGo] at hx
    by_cases hk : keyOf it ∈ seen
    · rw [if_pos hk] at hx
      have hxs : keyOf x ∉ seen := dedupGo_key_not_seen seen rest x hx
      have hne : (keyOf it == keyOf x) = false := by
        simp only [beq_eq_false_iff_ne, ne_eq]
        intro h; exact hxs (h ▸ hk)
      rw [List.find?_cons, hne]
      exact ih seen x hx
    · rw [if_neg hk] at hx
      rcases List.mem_cons.mp hx with h | h
      · subst h
        rw [List.find?_cons]
        simp
      · have hxs : keyOf x ∉ keyOf it :: seen :=
          dedupGo_key_not_seen (keyOf it :: seen) rest x h
        have hne : (keyOf it == keyOf x) = false := by
          simp only [beq_eq_false_iff_ne, ne_eq]
          intro habs
          exact hxs (habs ▸ List.mem_cons_self _ _)
        rw [List.find?_cons, hne]
        exact ih (keyOf it :: seen) x h

/-! ### Stability of the recency sort -/

/-- The sort is stable: the items carrying any fixed timestamp `d` come out
of the sort in exactly the order they went in. -/
theorem sortByDateDesc_stable_filter (l : List Item) (d : Int) :
    (sortByDateDesc l).filter (fun x => x.date == d)
      = l.filter (fun x => x.date == d) := by
  have hmemP : ∀ x ∈ l.filter (fun x => x.date == d), x.date = d := by
    intro x hx
    have := List.of_mem_filter hx
    simpa using this
  have hc : (l.filter (fun x => x.date == d)).Pairwise
      (fun a b => dateDescLe a b = true) := by
    refine pairwise_of_mem_imp hmemP ?_
    intro x y hx hy
    simp [dateDescLe, byDateDesc, hx, hy]
  have hsub : (l.filter (fun x => x.date == d)).Sublist (sortByDateDesc l) :=
    List.sublist_mergeSort dateDescLe_trans dateDescLe_total hc
      (List.filter_sublist l)
  have hself : (l.filter (fun x => x.date == d)).filter (fun x => x.date == d)
      = l.filter (fun x => x.date == d) :=
    List.filter_eq_self.mpr (fun a ha => by simp [hmemP a ha])
  have hsub2 := hsub.filter (fun x => x.date == d)
  rw [hself] at hsub2
  have hlen : ((sortByDateDesc l).filter (fun x => x.date == d)).length
      = (l.filter (fun x => x.date == d)).length :=
    ((sortByDateDesc_perm l).filter _).length_eq
  exact (hsub2.eq_of_length hlen.symm).symm

/-! ### Concrete items for witnesses and counterexamples -/

/-- The `i`-th sample video: distinct id, url and title; date `1000 - i`,
so `mkVideo 0, mkVideo 1, …` is already ranked most-recent-first. -/
def mkVideo (i : Nat) : Item :=
  { id := some ("v" ++ toString i), guid := none
    url := some ("u" ++ toString i), link := none, permalink := none
    title := some ("t" ++ toString i), type := "video", source := "yt"
    date := (1000 : Int) - i, description := "", image := none
    region := "GLOBAL" }

/-- A sample article older than all the sample videos. -/
def artOld : Item :=
  { id := some "a0", guid := none, url := some "ua0", link := none
    permalink := none, title := some "art", type := "article", source := "rss"
    date := 50, description := "", image := none, region := "GLOBAL" }

/-- A sample article between `mkVideo 0` and `mkVideo 2` in recency. -/
def artMid : Item :=
  { id := some "am", guid := none, url := some "uam", link := none
    permalink := none, title := some "mid", type := "article", source := "rss"
    date := 999, description := "", image := none, region := "GLOBAL" }

/-- An item whose timestamp is the sentinel epoch instant. -/
def epochItem : Item :=
  { id := some "e0", guid := none, url := some "ue0", link := none
    permalink := none, title := some "epoch", type := "article", source := "rss"
    date := 0, description := "", image := none, region := "GLOBAL" }

/-- Ten sample records, the prior feed of the retain scenario. -/
def tenItems : List Item := (List.range 10).map mkVideo

/-- A pool with one more video than the `MIN_VIDEOS = 100` reservation plus
one old article: deduplicated (all keys distinct) and ranked
most-recent-first. Total size 102, far below `MAX_ITEMS = 800`. -/
def bigPool : List Item := ((List.range 101).map mkVideo) ++ [artOld]

/-- A small deduplicated, ranked pool: two videos around one article. -/
def pool3 : List Item := [mkVideo 0, artMid, mkVideo 2]

set_option maxRecDepth 100000 in
theorem bigPool_keys_nodup : (bigPool.map keyOf).Nodup := by decide

set_option maxRecDepth 100000 in
theorem bigPool_sorted : bigPool.Pairwise (fun a b => dateDescLe a b = true) := by
  decide

set_option maxRecDepth 100000 in
theorem bigPool_combined_eq :
    reservedVideos bigPool ++ fillOthers bigPool
      = (List.range 100).map mkVideo ++ [artOld] := by decide

set_option maxRecDepth 100000 in
theorem bigPool_combined_sorted :
    ((List.range 100).map mkVideo ++ [artOld]).Pairwise
      (fun a b => dateDescLe a b = true) := by decide

/-- On `bigPool` the allocation result is the 100 most recent videos
followed by the old article; the 101st video is dropped although the feed
has 699 free slots left. -/
theorem allocate_bigPool :
    allocate bigPool = (List.range 100).map mkVideo ++ [artOld] := by
  rw [allocate_eq_sort, bigPool_combined_eq,
    sortByDateDesc_of_sorted bigPool_combined_sorted]

/-! ### Consequences of a deduplicated pool -/

theorem videos_others_length (pool : List Item) :
    (videosOf pool).length + (othersOf pool).length = pool.length := by
  have h := (List.filter_append_perm isVideo pool).length_eq
  rw [List.length_append] at h
  rw [videosOf, othersOf]
  exact h

/-- In a pool with pairwise-distinct keys, no non-video record can carry a
key already reserved by the video quota. -/
theorem others_key_not_taken (pool : List Item)
    (hnd : (pool.map keyOf).Nodup) :
    ∀ x ∈ othersOf pool, keyOf x ∉ takenKeys pool := by
  have hperm := (List.filter_append_perm isVideo pool).map keyOf
  have hnd2 : ((videosOf pool).map keyOf ++ (othersOf pool).map keyOf).Nodup := by
    rw [← List.map_append]
    exact (hperm.nodup_iff).mpr hnd
  have hdisj := (List.nodup_append.mp hnd2).2.2
  intro x hx htaken
  have hkv : keyOf x ∈ (videosOf pool).map keyOf := by
    have hsub := (reservedVideos_sublist pool).map keyOf
    exact hsub.mem htaken
  have hko : keyOf x ∈ (othersOf pool).map keyOf := List.mem_map_of_mem keyOf hx
  exact hdisj hkv hko

/-- In a deduplicated pool the taken-key check never fires: the fill is
just the leading `remain` non-video records. -/
theorem fillOthers_eq_take_others (pool : List Item)
    (hnd : (pool.map keyOf).Nodup) :
    fillOthers pool = (othersOf pool).take (remainBudget pool) := by
  rw [fillOthers_eq_take]
  congr 1
  refine List.filter_eq_self.mpr ?_
  intro a ha
  simp [others_key_not_taken pool hnd a ha]

/-- The allocation of a deduplicated pool has pairwise-distinct keys: no
record — reserved or filled — appears twice. -/
theorem allocate_keys_nodup (pool : List Item)
    (hnd : (pool.map keyOf).Nodup) :
    ((allocate pool).map keyOf).Nodup := by
  have hperm := (allocate_perm pool).map keyOf
  refine (hperm.nodup_iff).mpr ?_
  have hsub : (reservedVideos pool ++ fillOthers pool).Sublist
      (videosOf pool ++ othersOf pool) :=
    (reservedVideos_sublist pool).append (fillOthers_sublist pool)
  have hnd2 : ((videosOf pool ++ othersOf pool).map keyOf).Nodup := by
    have hp := (List.filter_append_perm isVideo pool).map keyOf
    rw [videosOf, othersOf]
    exact (hp.nodup_iff).mpr hnd
  exact List.Nodup.sublist (hsub.map keyOf) hnd2

/-! ### Claim theorems -/

/-- C1: for every deduplicated, ranked pool with `P` video records, the
allocation step outputs at least `min MIN_VIDEOS P` video records, those
video records are exactly the `min MIN_VIDEOS P` leading (most recent)
videos of the ranked pool, and the total output length is at most
`MAX_ITEMS`. -/
theorem allocate_video_quota (pool : List Item)
    (hnd : (pool.map keyOf).Nodup)
    (hrank : pool.Pairwise (fun a b => dateDescLe a b = true)) :
    min MIN_VIDEOS (videosOf pool).length
        ≤ ((allocate pool).filter isVideo).length
    ∧ ((allocate pool).filter isVideo).Perm ((videosOf pool).take MIN_VIDEOS)
    ∧ (allocate pool).length ≤ MAX_ITEMS := by
  refine ⟨?_, ?_, allocate_length_le pool⟩
  · rw [(allocate_filter_video pool).length_eq, reservedVideos_length]
  · rw [← reservedVideos_eq_take]
    exact allocate_filter_video pool

/-- C1 witness: the quota property at the concrete ranked pool `pool3`. -/
theorem allocate_video_quota_witness :
    min MIN_VIDEOS (videosOf pool3).length
        ≤ ((allocate pool3).filter isVideo).length
    ∧ ((allocate pool3).filter isVideo).Perm ((videosOf pool3).take MIN_VIDEOS)
    ∧ (allocate pool3).length ≤ MAX_ITEMS :=
  allocate_video_quota pool3 (by decide) (by decide)

set_option maxRecDepth 100000 in
/-- C2 counterexample: on the deduplicated, ranked pool `bigPool`, the
101st most recent video is newer than the article the fill step picks, the
output has 699 slots of remaining budget, yet that video is excluded while
the older article is included — the fill does not draw from all
categories. -/
theorem allocate_fill_skips_video_cex :
    (bigPool.map keyOf).Nodup
    ∧ bigPool.Pairwise (fun a b => dateDescLe a b = true)
    ∧ mkVideo 100 ∈ bigPool
    ∧ (mkVideo 100).type = "video"
    ∧ artOld ∈ allocate bigPool
    ∧ artOld.date < (mkVideo 100).date
    ∧ (allocate bigPool).length < MAX_ITEMS
    ∧ mkVideo 100 ∉ allocate bigPool := by
  refine ⟨bigPool_keys_nodup, bigPool_sorted, by decide, rfl, ?_, by decide,
    ?_, ?_⟩
  · rw [allocate_bigPool]; decide
  · rw [allocate_bigPool]; decide
  · rw [allocate_bigPool]; decide

/-- C2 amended: after reserving, the remaining budget is filled with the
most recent NON-VIDEO records only (never with video overflow beyond the
reservation), anything already reserved is excluded, and no reserved
record appears twice: the output is exactly reserved ++ fill re-ranked,
with pairwise-distinct keys. -/
theorem allocate_fill_spec (pool : List Item)
    (hnd : (pool.map keyOf).Nodup)
    (hrank : pool.Pairwise (fun a b => dateDescLe a b = true)) :
    fillOthers pool = (othersOf pool).take (remainBudget pool)
    ∧ ((allocate pool).map keyOf).Nodup
    ∧ (allocate pool).Perm (reservedVideos pool ++ fillOthers pool) :=
  ⟨fillOthers_eq_take_others pool hnd, allocate_keys_nodup pool hnd,
    allocate_perm pool⟩

/-- C2 amended, witness at the concrete ranked pool `pool3`. -/
theorem allocate_fill_spec_witness :
    fillOthers pool3 = (othersOf pool3).take (remainBudget pool3)
    ∧ ((allocate pool3).map keyOf).Nodup
    ∧ (allocate pool3).Perm (reservedVideos pool3 ++ fillOthers pool3) :=
  allocate_fill_spec pool3 (by decide) (by decide)

set_option maxRecDepth 100000 in
/-- C3 counterexample: `bigPool` is deduplicated and holds 102 records,
fewer than `MAX_ITEMS = 800`, yet the allocation step does not return them
all — the 101st video is dropped. -/
theorem allocate_small_pool_cex :
    (bigPool.map keyOf).Nodup
    ∧ bigPool.length < MAX_ITEMS
    ∧ ¬ (allocate bigPool).length = bigPool.length := by
  refine ⟨bigPool_keys_nodup, by decide, ?_⟩
  rw [allocate_bigPool]
  decide

/-- C3 amended: if the deduplicated pool is smaller than `MAX_ITEMS` AND
carries at most `MIN_VIDEOS` videos, the allocation step returns the whole
pool (a permutation of it, of exactly the pool's length — never padded).
When the pool has more than `MIN_VIDEOS` videos the overflow videos are
dropped even though the cap leaves room (see the counterexample). -/
theorem allocate_small_pool_spec (pool : List Item)
    (hnd : (pool.map keyOf).Nodup)
    (hlen : pool.length < MAX_ITEMS)
    (hvid : (videosOf pool).length ≤ MIN_VIDEOS) :
    (allocate pool).Perm pool ∧ (allocate pool).length = pool.length := by
  have hkeep : reservedVideos pool = videosOf pool := by
    rw [reservedVideos_eq_take]
    exact List.take_of_length_le hvid
  have hkeeplen : (reservedVideos pool).length = (videosOf pool).length := by
    rw [hkeep]
  have hsplit := videos_others_length pool
  have hothers : (othersOf pool).length ≤ remainBudget pool := by
    rw [remainBudget, hkeeplen]
    simp only [MAX_ITEMS, MIN_VIDEOS] at *
    omega
  have hfill : fillOthers pool = othersOf pool := by
    rw [fillOthers_eq_take_others pool hnd]
    exact List.take_of_length_le hothers
  have hperm : (allocate pool).Perm pool := by
    have h := allocate_perm pool
    rw [hkeep, hfill] at h
    exact h.trans (List.filter_append_perm isVideo pool)
  exact ⟨hperm, hperm.length_eq⟩

/-- C3 amended, witness at the concrete pool `pool3` (3 records, 2 videos). -/
theorem allocate_small_pool_spec_witness :
    (allocate pool3).Perm pool3 ∧ (allocate pool3).length = pool3.length :=
  allocate_small_pool_spec pool3 (by decide) (by decide) (by decide)

/-- C4: deduplication returns a sublist of the input (the survivors keep
their relative input order), no two survivors share a key, and every
survivor is the first record of its key in input order. -/
theorem dedup_first_seen_spec (l : List Item) :
    (dedup l).Sublist l
    ∧ ((dedup l).map keyOf).Nodup
    ∧ ∀ x ∈ dedup l, l.find? (fun y => keyOf y == keyOf x) = some x :=
  ⟨dedupGo_sublist [] l, dedupGo_keys_nodup [] l, dedupGo_find_first [] l⟩

/-- C5: when the resolved date source is absent or does not parse, both
date normalizers return the sentinel epoch instant (they are total, so they
never throw), and a record carrying the sentinel sorts as oldest relative
to any record dated at or after the epoch. -/
theorem toISO_sentinel_spec (v : DateInput)
    (hv : v = DateInput.absent ∨ v = DateInput.unparsable)
    (r s : Item) (hr : r.date = epochMS) (hs : epochMS ≤ s.date) :
    toISO v = epochMS ∧ toISODate v = epochMS ∧ dateDescLe s r = true := by
  have hle : dateDescLe s r = true := by
    simp only [dateDescLe, byDateDesc, decide_eq_true_eq]
    simp only [epochMS] at hr hs
    omega
  rcases hv with h | h <;> subst h <;> exact ⟨rfl, rfl, hle⟩

/-- C5 witness: the unparsable input, an epoch-dated record and a recent
record. -/
theorem toISO_sentinel_witness :
    toISO DateInput.unparsable = epochMS
    ∧ toISODate DateInput.unparsable = epochMS
    ∧ dateDescLe (mkVideo 0) epochItem = true :=
  toISO_sentinel_spec DateInput.unparsable (Or.inr rfl) epochItem (mkVideo 0)
    (by decide) (by decide)

/-- C6 (spec-modelled policy dispatch): with strictness retain-and-succeed,
an empty fresh build and an existing non-empty prior feed, the guard
persists the prior feed unchanged and the run reports success. -/
theorem snapshotGuard_retain_and_succeed (now : String) (prev : Feed)
    (items : List Item) (hempty : items = []) (hprev : prev.items ≠ []) :
    snapshotGuard Strictness.retainAndSucceed now (some prev) items
      = { written := some prev, success := true } := by
  subst hempty
  rfl

/-- C6 witness: a prior feed holding ten records. -/
theorem snapshotGuard_retain_witness :
    snapshotGuard Strictness.retainAndSucceed "t1" (some (mkFeed "t0" tenItems)) []
      = { written := some (mkFeed "t0" tenItems), success := true } :=
  snapshotGuard_retain_and_succeed "t1" (mkFeed "t0" tenItems) [] rfl (by decide)

/-- C7: the prior-feed reader accepts both historical shapes — a non-empty
bare array, and an object wrapping a non-empty array under `items` — and
yields a feed with the same records in either case; an unreadable file or
JSON of any other shape yields the no-prior-collection result instead of
failing. -/
theorem readOldFeed_shapes_spec (now g : String) (c : Nat) (rs : List Item)
    (h : rs ≠ []) :
    (readOldFeed now (PriorFile.bareArray rs)).map Feed.items = some rs
    ∧ (readOldFeed now (PriorFile.wrapped g c rs)).map Feed.items = some rs
    ∧ readOldFeed now PriorFile.unreadable = none
    ∧ readOldFeed now PriorFile.otherJson = none := by
  have hlen : rs.length ≠ 0 := by simpa using h
  refine ⟨?_, ?_, rfl, rfl⟩ <;> simp [readOldFeed, hlen, mkFeed]

/-- C7 witness: a one-record prior feed in both shapes. -/
theorem readOldFeed_shapes_witness :
    (readOldFeed "t1" (PriorFile.bareArray [artOld])).map Feed.items
        = some [artOld]
    ∧ (readOldFeed "t1" (PriorFile.wrapped "t0" 7 [artOld])).map Feed.items
        = some [artOld]
    ∧ readOldFeed "t1" PriorFile.unreadable = none
    ∧ readOldFeed "t1" PriorFile.otherJson = none :=
  readOldFeed_shapes_spec "t1" "t0" 7 [artOld] (by decide)

/-- C8: the allocation output is sorted by timestamp descending (every
record's date is ≥ every later record's date); the output is an initial
segment of the re-sorted reserved ++ fill sequence, so the re-sort happens
before the truncation to `MAX_ITEMS`; and the sort is stable — records
sharing any timestamp `d` keep exactly their pre-sort relative order. -/
theorem allocate_sorted_stable (pool : List Item) (d : Int) :
    (allocate pool).Pairwise (fun a b => b.date ≤ a.date)
    ∧ (∃ rest, sortByDateDesc (reservedVideos pool ++ fillOthers pool)
        = allocate pool ++ rest)
    ∧ (sortByDateDesc (reservedVideos pool ++ fillOthers pool)).filter
          (fun x => x.date == d)
        = (reservedVideos pool ++ fillOthers pool).filter
          (fun x => x.date == d) := by
  refine ⟨?_, ?_, sortByDateDesc_stable_filter _ d⟩
  · have hs := sortByDateDesc_sorted (reservedVideos pool ++ fillOthers pool)
    have hsub : (allocate pool).Sublist
        (sortByDateDesc (reservedVideos pool ++ fillOthers pool)) := by
      rw [allocate]
      exact List.take_sublist _ _
    refine (List.Pairwise.sublist hsub hs).imp ?_
    intro a b h
    simp only [dateDescLe, byDateDesc, decide_eq_true_eq] at h
    omega
  · refine ⟨(sortByDateDesc (reservedVideos pool ++ fillOthers pool)).drop
      MAX_ITEMS, ?_⟩
    rw [allocate]
    exact (List.take_append_drop _ _).symm

/-- C9: the merge engine is a pure function of the input pool — two runs on
the same raw records in the same arrival order produce identical output
sequences, every field included (the generation timestamp lives outside
`buildFeedCore`, in the persistence wrapper). -/
theorem buildFeedCore_deterministic (p1 p2 : List Item) (h : p1 = p2) :
    buildFeedCore p1 = buildFeedCore p2 := by rw [h]

/-- C9 witness: two runs on the concrete pool `pool3`. -/
theorem buildFeedCore_deterministic_witness :
    buildFeedCore pool3 = buildFeedCore pool3 :=
  buildFeedCore_deterministic pool3 pool3 rfl

/-- C10: the allocation output carries exactly `min MIN_VIDEOS P` video
records, where `P` counts the pool's videos, and the fill loop only ever
draws non-video records — no video beyond the reservation can appear, even
when the cap leaves room. -/
theorem allocate_video_count_exact (pool : List Item) :
    ((allocate pool).filter isVideo).length
        = min MIN_VIDEOS (videosOf pool).length
    ∧ ∀ x ∈ fillOthers pool, ¬ x.type = "video" := by
  constructor
  · rw [(allocate_filter_video pool).length_eq, reservedVideos_length]
  · intro x hx
    have h := fillOthers_no_video pool x hx
    simp only [isVideo, decide_eq_false_iff_not] at h
    exact h
